import Mathlib

/-!
# One-time-pad service: the alphabet codec, the transform and the wire handling

A shallow embedding of `enc_server.c` and `enc_client.c`.

Conventions of the embedding.

* A C `char` is an `Int` holding its value (`char` is taken to be the signed
  8-bit type of the usual Linux targets; `wrapChar` is the conversion of an
  `int` to `char`).  Every character the theorems speak about is below 128, so
  the signedness never shows.
* A C `int` is an `Int`.  The sums formed by `encrypt` stay within `[-400, 400]`
  and the counters of `sendData` within the size of the buffers, so no wrap is
  modelled there; the one place where an `int` is reinterpreted (the length
  field read off the wire) goes through `decodeInt`, which wraps to 32 bits.
* C's `%` truncates towards zero: it is `Int.tmod`.
* A buffer is a `List Int`; an access outside it makes the operation return
  `none`.
* An `int` lies in memory as four bytes, least significant first (`encodeInt`,
  `decodeInt`); client and server run on the same host, the client connects to
  "localhost".
* The outside world is a parameter: the contents of the files, what each
  `send` and `recv` returns (as a function of the number of the call and of the
  count it is given), the bytes in flight.  A run yields the list of its
  `Event`s and how it ended (`Step`): a returned value or the code of `exit`.
* A `while` loop takes a bound on its iterations (`fuel`) and yields `none`
  when the bound is reached before the loop ends.
-/

set_option maxRecDepth 100000

namespace OTP

/-! ## Characters -/

/-- The constant of `#define BUFFER_SIZE 1024` (both programs). -/
def BUFFER_SIZE : Nat := 1024

/-- Conversion of an `int` to `char`: reduction to the signed 8-bit range. -/
def wrapChar (x : Int) : Int := (x + 128) % 256 - 128

/-- The constant `' '`. -/
def chSpace : Int := 32

/-- The constant `'A'`. -/
def chA : Int := 65

/-- The constant `'Z'` (used by the alphabet predicate only). -/
def chZ : Int := 90

/-- The codes of the characters of a string literal. -/
def ascii (s : String) : List Int := s.toList.map (fun c => (c.toNat : Int))

/-- Membership in the Cipher Alphabet `{A..Z, ' '}`. -/
def inAlphabet (c : Int) : Prop := c = chSpace ∨ (chA ≤ c ∧ c ≤ chZ)

instance (c : Int) : Decidable (inAlphabet c) := by
  unfold inAlphabet; infer_instance

/-! ## enc_server.c: codec and transform -/

/-- Function `int charToIndex(char c)`, enc_server.c 41-44. -/
def charToIndex (c : Int) : Int :=
  if c = chSpace then 26 else c - chA

/-- Function `char indexToChar(int i)`, enc_server.c 47-50. -/
def indexToChar (i : Int) : Int :=
  if i = 26 then chSpace else wrapChar (chA + i)

/-- The `for` loop of `encrypt` (enc_server.c 54-62): `n` iterations are still
to run, the next one at index `i`.  `text` is updated in place. -/
def encryptLoop : Nat → Nat → List Int → List Int → Option (List Int)
  | 0, _, text, _ => some text
  | n + 1, i, text, key =>
    match text[i]?, key[i]? with
    | some t, some k =>
      let textIdx := charToIndex t
      let keyIdx := charToIndex k
      encryptLoop n (i + 1) (text.set i (indexToChar ((textIdx + keyIdx).tmod 27))) key
    | _, _ => none

/-- Function `void encrypt(char *text, const char *key, int length)`, enc_server.c
53-63.  The result is the buffer `text` after the call. -/
def encrypt (text key : List Int) (length : Int) : Option (List Int) :=
  encryptLoop length.toNat 0 text key

/-- Modelled from the spec: the decrypting engine of `dec_server.c`, which is
not among the sources.  For each position `i` of the first `n` it stores
`charAt((indexOf(cipher[i]) - indexOf(key[i]) + 27) mod 27)`, with the codec of
`enc_server.c`; `mod` is the mathematical remainder. -/
def decryptLoop : Nat → Nat → List Int → List Int → Option (List Int)
  | 0, _, cipher, _ => some cipher
  | n + 1, i, cipher, key =>
    match cipher[i]?, key[i]? with
    | some c, some k =>
      decryptLoop n (i + 1)
        (cipher.set i (indexToChar ((charToIndex c - charToIndex k + 27) % 27))) key
    | _, _ => none

/-- Modelled from the spec: `decrypt(cipher, key)` over the first `length`
positions (the decrypting variant is not among the sources). -/
def decrypt (cipher key : List Int) (length : Int) : Option (List Int) :=
  decryptLoop length.toNat 0 cipher key

/-! ## Effects, shared by both programs -/

/-- One interaction of a program with the outside world. -/
inductive Event where
  /-- A call `fprintf(stderr, msg)` -/
  | stderr (msg : String)
  /-- A call `perror(msg)` -/
  | perror (msg : String)
  /-- The call `printf` of the client: the characters of `text`, then a newline -/
  | stdout (text : List Int)
  /-- A call of `gethostbyname` -/
  | resolve
  /-- A call of `socket` -/
  | socket
  /-- A call of `connect` -/
  | connect
  /-- A call of `send` with the bytes `offered`, which returned `result` -/
  | send (offered : List Int) (result : Int)
  /-- A call of `recv` for at most `requested` bytes, which returned `result` -/
  | recv (requested : Nat) (result : Int)
  /-- A call of `close` -/
  | close
  deriving DecidableEq

/-- How a piece of code ends: it returns a value, or the process exits. -/
inductive Step (α : Type) where
  | ret (value : α)
  | exit (code : Int)
  deriving DecidableEq

/-- The events a piece of code produced, in order, and how it ended. -/
structure Run (α : Type) where
  events : List Event
  result : Step α
  deriving DecidableEq

/-- Function `void error(const char *msg)`: `perror(msg); exit(1);` (both programs). -/
def error {α : Type} (msg : String) : Run α :=
  ⟨[Event.perror msg], Step.exit 1⟩

/-- Conversion of an `int` to `size_t` (64 bits). -/
def toSizeT (x : Int) : Nat := (x % 18446744073709551616).toNat

/-- The library's `strlen`: the number of characters before the first NUL. -/
def strlen (s : List Int) : Int := ((s.takeWhile (fun c => c ≠ 0)).length : Int)

/-- The four bytes of an `int` in memory, as `char` values (host layout:
32 bits, two's complement, least significant byte first). -/
def encodeInt (n : Int) : List Int :=
  [wrapChar (n % 256), wrapChar (n / 256 % 256), wrapChar (n / 65536 % 256),
    wrapChar (n / 16777216 % 256)]

/-- The `int` whose memory holds the given bytes (missing bytes read as 0). -/
def decodeInt (bytes : List Int) : Int :=
  let b (i : Nat) : Int := (bytes.getD i 0) % 256
  let u := b 0 + 256 * b 1 + 65536 * b 2 + 16777216 * b 3
  if u < 2147483648 then u else u - 4294967296

/-! ## enc_client.c -/

/-- The `fgets(buffer, n, file)` of `readFileContent`: at most `room` characters
are stored, stopping after a newline. -/
def fgetsLine : Nat → List Int → List Int
  | 0, _ => []
  | _, [] => []
  | room + 1, c :: cs => if c = 10 then [c] else c :: fgetsLine room cs

/-- Function `void readFileContent(const char* filename, char* buffer)`,
enc_client.c 57-76.  `file` is the content of the named file, `none` when it cannot be
opened.  The value returned is the C string left in `buffer`. -/
def readFileContent (file : Option (List Int)) : Run (List Int) :=
  match file with
  | none => ⟨[Event.stderr "CLIENT: ERROR opening file %s\n"], Step.exit 1⟩
  | some content =>
    if content = [] then
      -- fgets returns NULL at end of file
      ⟨[Event.stderr "CLIENT: ERROR reading file %s\n"], Step.exit 1⟩
    else
      let line := (fgetsLine (BUFFER_SIZE - 1 - 1) content).takeWhile (fun c => c ≠ 0)
      -- buffer[strcspn(buffer, "\n")] = '\0'
      ⟨[], Step.ret (line.takeWhile (fun c => c ≠ 10))⟩

/-- What `sendData` leaves behind: its events, its returned total (or the exit
of the process), and the number of `send` calls made on the socket so far. -/
structure SendRun where
  events : List Event
  result : Step Int
  calls : Nat
  deriving DecidableEq

/-- The `while` loop of `sendData`, enc_client.c 84-98.  `send k c` is what the
`k`-th `send` call on the socket returns when offered `c` bytes; `fuel` bounds
the number of iterations (`none` when it runs out). -/
def sendDataLoop (send : Nat → Nat → Int) (data : List Int) (dataSize : Int) :
    Nat → Nat → Int → Option SendRun
  | fuel, k, totalSent =>
    if totalSent < dataSize then
      match fuel with
      | 0 => none
      | fuel + 1 =>
        let offered := (data.drop totalSent.toNat).take (dataSize - totalSent).toNat
        let charsWritten := send k (dataSize - totalSent).toNat
        if charsWritten < 0 then
          some ⟨Event.send offered charsWritten
            :: (error "CLIENT: ERROR writing to socket" : Run Int).events, Step.exit 1, k + 1⟩
        else if charsWritten = 0 then
          some ⟨[Event.send offered charsWritten], Step.ret totalSent, k + 1⟩
        else
          match sendDataLoop send data dataSize fuel (k + 1) (totalSent + charsWritten) with
          | none => none
          | some r => some ⟨Event.send offered charsWritten :: r.events, r.result, r.calls⟩
    else
      some ⟨[], Step.ret totalSent, k⟩

/-- Function `int sendData(int socketFD, const char* data, int dataSize)`,
enc_client.c 79-100; `k` is the number of `send` calls made on the socket before. -/
def sendData (send : Nat → Nat → Int) (fuel k : Nat) (data : List Int) (dataSize : Int) :
    Option SendRun :=
  sendDataLoop send data dataSize fuel k 0

/-- What one `recv` call leaves behind. -/
structure RecvOut where
  /-- the value returned -/
  charsRead : Int
  /-- the destination memory after the call -/
  dst : List Int
  /-- the bytes still in flight -/
  stream : List Int
  deriving DecidableEq

/-- The call `recv(fd, dst, count, 0)` on a connection whose bytes in flight are
`stream`, when the transport lets the call return `res`: a negative `res` is an
error; otherwise the first bytes in flight, at most `res` and at most `count`,
overwrite the start of `dst`.  `none` when they do not fit into `dst`. -/
def recv (res : Int) (stream dst : List Int) (count : Nat) : Option RecvOut :=
  if res < 0 then some ⟨res, dst, stream⟩
  else
    let got := stream.take (min res.toNat count)
    if got.length ≤ dst.length then
      some ⟨got.length, got ++ dst.drop got.length, stream.drop got.length⟩
    else none

/-- The block of `main` that writes one field, enc_client.c 142-151 for the
text and 153-162 for the key: the `int` holding `strlen(data)` goes out through
`sendData` as `sizeof(int)` raw bytes, then the characters themselves; each
short count is answered by a warning on stderr, and the run goes on. -/
def sendField (send : Nat → Nat → Int) (fuel k : Nat) (data : List Int)
    (sizeWarning dataWarning : String) : Option SendRun :=
  let size : Int := strlen data
  match sendData send fuel k (encodeInt size) 4 with
  | none => none
  | some r1 =>
    match r1.result with
    | Step.exit code => some ⟨r1.events, Step.exit code, r1.calls⟩
    | Step.ret n1 =>
      -- `sendData(..) < sizeof(plaintextSize)` compares as `size_t`
      let ev1 := r1.events ++ (if toSizeT n1 < 4 then [Event.stderr sizeWarning] else [])
      match sendData send fuel r1.calls data size with
      | none => none
      | some r2 =>
        match r2.result with
        | Step.exit code => some ⟨ev1 ++ r2.events, Step.exit code, r2.calls⟩
        | Step.ret n2 =>
          some ⟨ev1 ++ r2.events ++ (if n2 < size then [Event.stderr dataWarning] else []),
            Step.ret n2, r2.calls⟩

/-- The warning of enc_client.c 145. -/
def warnTextSize : String := "CLIENT: WARNING: Not all plaintext size data written to socket!\n"

/-- The warning of enc_client.c 150. -/
def warnText : String := "CLIENT: WARNING: Not all plaintext data written to socket!\n"

/-- The warning of enc_client.c 156. -/
def warnKeySize : String := "CLIENT: WARNING: Not all key size data written to socket!\n"

/-- The warning of enc_client.c 161. -/
def warnKey : String := "CLIENT: WARNING: Not all key data written to socket!\n"

/-- Everything outside the client that its `main` depends on. -/
structure ClientWorld where
  /-- the argument count -/
  argc : Int
  /-- content of the file named by `argv[1]`, `none` when `fopen` fails -/
  textFile : Option (List Int)
  /-- content of the file named by `argv[2]` -/
  keyFile : Option (List Int)
  /-- whether `gethostbyname("localhost")` finds the host -/
  hostFound : Bool
  /-- what `socket` returns -/
  socketFD : Int
  /-- what `connect` returns -/
  connectRes : Int
  /-- what the `k`-th `send` returns when offered `c` bytes -/
  sendRes : Nat → Nat → Int
  /-- what the final `recv` returns -/
  recvRes : Int
  /-- the bytes that `recv` has to deliver -/
  recvData : List Int

/-- Function `void setupAddressStruct(..., char* hostname)`, enc_client.c 33-54,
as far as it acts on the outside world: the host lookup and its failure exit. -/
def setupAddressStruct (hostFound : Bool) : Run Unit :=
  if hostFound then ⟨[Event.resolve], Step.ret ()⟩
  else ⟨[Event.resolve, Event.stderr "CLIENT: ERROR, no such host\n"], Step.exit 1⟩

/-- Function `int main(int argc, char *argv[])` of enc_client.c, 103-177.  `fuel`
bounds the iterations of each `sendData` loop. -/
def main (w : ClientWorld) (fuel : Nat) : Option (Run Int) :=
  if w.argc < 4 then
    some ⟨[Event.stderr "USAGE: %s plaintext key port\n"], Step.exit 1⟩
  else
    match readFileContent w.textFile with
    | ⟨ev, Step.exit code⟩ => some ⟨ev, Step.exit code⟩
    | ⟨evT, Step.ret plaintext⟩ =>
    match readFileContent w.keyFile with
    | ⟨ev, Step.exit code⟩ => some ⟨evT ++ ev, Step.exit code⟩
    | ⟨evK, Step.ret key⟩ =>
    if strlen key < strlen plaintext then
      some ⟨evT ++ evK ++ [Event.stderr "CLIENT: ERROR, key length is shorter than plaintext\n"],
        Step.exit 1⟩
    else
    match setupAddressStruct w.hostFound with
    | ⟨ev, Step.exit code⟩ => some ⟨evT ++ evK ++ ev, Step.exit code⟩
    | ⟨evA, Step.ret _⟩ =>
    let ev0 := evT ++ evK ++ evA ++ [Event.socket]
    if w.socketFD < 0 then
      some ⟨ev0 ++ (error "CLIENT: ERROR opening socket" : Run Int).events, Step.exit 1⟩
    else
    let ev1 := ev0 ++ [Event.connect]
    if w.connectRes < 0 then
      some ⟨ev1 ++ (error "CLIENT: ERROR connecting" : Run Int).events, Step.exit 1⟩
    else
    match sendField w.sendRes fuel 0 plaintext warnTextSize warnText with
    | none => none
    | some f1 =>
    match f1.result with
    | Step.exit code => some ⟨ev1 ++ f1.events, Step.exit code⟩
    | Step.ret _ =>
    match sendField w.sendRes fuel f1.calls key warnKeySize warnKey with
    | none => none
    | some f2 =>
    match f2.result with
    | Step.exit code => some ⟨ev1 ++ f1.events ++ f2.events, Step.exit code⟩
    | Step.ret _ =>
    -- memset(plaintext, '\0', BUFFER_SIZE); recv(socketFD, plaintext, BUFFER_SIZE - 1, 0)
    match recv w.recvRes w.recvData (List.replicate BUFFER_SIZE 0) (BUFFER_SIZE - 1) with
    | none => none
    | some r =>
    let ev2 := ev1 ++ f1.events ++ f2.events ++ [Event.recv (BUFFER_SIZE - 1) r.charsRead]
    if r.charsRead < 0 then
      some ⟨ev2 ++ (error "CLIENT: ERROR reading from socket" : Run Int).events, Step.exit 1⟩
    else
      -- printf("%s\n", plaintext); close(socketFD); return 0
      some ⟨ev2 ++ [Event.stdout (r.dst.takeWhile (fun c => c ≠ 0)), Event.close], Step.ret 0⟩

/-- The exit code of a run of `main`. -/
def exitCode : Step Int → Int
  | Step.ret value => value
  | Step.exit code => code

/-- Whether an event is a network operation. -/
def Event.isNetwork : Event → Bool
  | Event.resolve => true
  | Event.socket => true
  | Event.connect => true
  | Event.send _ _ => true
  | Event.recv _ _ => true
  | Event.close => true
  | _ => false

/-- Whether an event prints on standard output. -/
def Event.isStdout : Event → Bool
  | Event.stdout _ => true
  | _ => false

/-! ## enc_server.c: the connection handler -/

/-- The locals one field is read into. -/
structure FieldOut where
  /-- the `int` the length field was read into -/
  length : Int
  /-- the array the payload was read into -/
  buffer : List Int
  /-- the bytes still in flight -/
  stream : List Int
  deriving DecidableEq

/-- The block of `handleCommunication` that reads one field, enc_server.c 76-87
for the text and 89-103 for the key: one `recv` of `sizeof(int)` bytes into the
length variable, then one `recv` of that many bytes into the array.  `len0` and
`buf0` are the contents of the two locals before; `recvRes j c` is what the
`j`-th `recv` on the connection returns when asked for `c` bytes. -/
def recvField (recvRes : Nat → Nat → Int) (k : Nat) (stream len0 buf0 : List Int) :
    Option (Run FieldOut) :=
  match recv (recvRes k 4) stream len0 4 with
  | none => none
  | some r1 =>
    if r1.charsRead < 0 then
      some ⟨Event.recv 4 r1.charsRead :: (error "ERROR reading from socket" : Run Unit).events,
        Step.exit 1⟩
    else
      let length := decodeInt r1.dst
      match recv (recvRes (k + 1) (toSizeT length)) r1.stream buf0 (toSizeT length) with
      | none => none
      | some r2 =>
        if r2.charsRead < 0 then
          some ⟨[Event.recv 4 r1.charsRead, Event.recv (toSizeT length) r2.charsRead]
            ++ (error "ERROR reading from socket" : Run Unit).events, Step.exit 1⟩
        else
          some ⟨[Event.recv 4 r1.charsRead, Event.recv (toSizeT length) r2.charsRead],
            Step.ret ⟨length, r2.dst, r2.stream⟩⟩

/-- Everything outside the handler that it depends on. -/
structure ServerWorld where
  /-- the bytes the client has put on the connection, in order -/
  incoming : List Int
  /-- what the `j`-th `recv` returns when asked for `c` bytes -/
  recvRes : Nat → Nat → Int
  /-- what the `send` of the reply returns -/
  sendRes : Int
  /-- the indeterminate bytes of `textLength` before it is read into -/
  textLength0 : List Int
  /-- the indeterminate bytes of `keyLength` -/
  keyLength0 : List Int
  /-- the indeterminate contents of `key` -/
  key0 : List Int

/-- What the handler holds when it calls `encrypt`. -/
structure Request where
  events : List Event
  buffer : List Int
  textLength : Int
  key : List Int
  keyLength : Int
  deriving DecidableEq

/-- Lines 68-103 of `handleCommunication`: the buffer is cleared and the two
fields are read.  `Sum.inl` is the run that ended in `error`. -/
def receiveRequest (w : ServerWorld) : Option (Run Unit ⊕ Request) :=
  let buffer := List.replicate BUFFER_SIZE (0 : Int)
  match recvField w.recvRes 0 w.incoming w.textLength0 buffer with
  | none => none
  | some ⟨ev1, Step.exit code⟩ => some (Sum.inl ⟨ev1, Step.exit code⟩)
  | some ⟨ev1, Step.ret text⟩ =>
    match recvField w.recvRes 2 text.stream w.keyLength0 w.key0 with
    | none => none
    | some ⟨ev2, Step.exit code⟩ => some (Sum.inl ⟨ev1 ++ ev2, Step.exit code⟩)
    | some ⟨ev2, Step.ret key⟩ =>
      some (Sum.inr ⟨ev1 ++ ev2, text.buffer, text.length, key.buffer, key.length⟩)

/-- Function `void handleCommunication(int connectionSocket)`, enc_server.c 66-113.
`none` when an access leaves an array. -/
def handleCommunication (w : ServerWorld) : Option (Run Unit) :=
  match receiveRequest w with
  | none => none
  | some (Sum.inl run) => some run
  | some (Sum.inr req) =>
    match encrypt req.buffer req.key req.textLength with
    | none => none
    | some buffer =>
      if toSizeT req.textLength ≤ buffer.length then
        let reply := Event.send (buffer.take (toSizeT req.textLength)) w.sendRes
        if w.sendRes < 0 then
          some ⟨req.events ++ reply :: (error "ERROR writing to socket" : Run Unit).events,
            Step.exit 1⟩
        else some ⟨req.events ++ [reply], Step.ret ()⟩
      else none

/-! ## Reading a list of events -/

/-- The number of bytes the `send` calls among the events accepted in all. -/
def accepted : List Event → Int
  | [] => 0
  | Event.send _ r :: es => r + accepted es
  | _ :: es => accepted es

/-- The bytes the `send` calls among the events put on the wire, in order: of
each call the first `result` of the bytes it offered. -/
def written : List Event → List Int
  | [] => []
  | Event.send off r :: es => off.take r.toNat ++ written es
  | _ :: es => written es

/-- A buffer after `memset(buffer, 0, BUFFER_SIZE)`. -/
def clearedBuffer : List Int := List.replicate BUFFER_SIZE 0

/-- The events of one `sendData` call read against the transport: `evs` are
`send` calls only; the call after the events `pre` is the `send` numbered
`k + pre.length`, it is made while bytes remain, it is offered the data after
the bytes accepted so far, and its result is what the transport returns for
that count; `total` is the number of bytes accepted in all, it is the size of
the data exactly when no call returned 0, and a call that returned 0 is the
last one. -/
def isSendTrace (send : Nat → Nat → Int) (k : Nat) (data : List Int) (evs : List Event)
    (total : Int) : Prop :=
  (∀ e ∈ evs, ∃ off r, e = Event.send off r) ∧
  (∀ pre off r post, evs = pre ++ Event.send off r :: post →
      off = data.drop (accepted pre).toNat ∧
      r = send (k + pre.length) (data.length - (accepted pre).toNat) ∧
      accepted pre < data.length) ∧
  total = accepted evs ∧ 0 ≤ total ∧ total ≤ data.length ∧
  (total = data.length ↔ ∀ off, Event.send off 0 ∉ evs) ∧
  (∀ pre off post, evs = pre ++ Event.send off 0 :: post → post = [])

/-- The bytes the final `recv` of the client stores: the first bytes in flight,
at most as many as the transport lets the call return and at most
`BUFFER_SIZE - 1`. -/
def received (w : ClientWorld) : List Int :=
  w.recvData.take (min w.recvRes.toNat (BUFFER_SIZE - 1))

/-- A transport that lets the second `send` on the socket make no progress and
every other `send` accept at most two bytes. -/
def stallSecond : Nat → Nat → Int := fun j c => if j = 1 then 0 else min 2 (c : Int)

/-- A transport that hands the second `recv` on the connection one byte and
every other `recv` as many bytes as it asks for. -/
def splitDelivery : Nat → Nat → Int := fun k c => if k = 1 then 1 else (c : Int)

/-- A client run in which the second `send` (the text itself) reports zero
progress: "HELLO" and "XMCKL" load, the connection opens, every other `send`
takes all it is offered, and the server's reply "DQNVZ" arrives. -/
def stalledWorld : ClientWorld where
  argc := 4
  textFile := some (ascii "HELLO\n")
  keyFile := some (ascii "XMCKL\n")
  hostFound := true
  socketFD := 3
  connectRes := 0
  sendRes := fun k c => if k = 1 then 0 else (c : Int)
  recvRes := 5
  recvData := ascii "DQNVZ"

/-- A client run with a key shorter than the text. -/
def shortKeyWorld : ClientWorld where
  argc := 4
  textFile := some (ascii "HELLO\n")
  keyFile := some (ascii "XMC\n")
  hostFound := true
  socketFD := 3
  connectRes := 0
  sendRes := fun _ c => (c : Int)
  recvRes := 5
  recvData := ascii "DQNVZ"

/-- A connection on which the client has written the request ("AB", "AB") in
full and the transport hands the second `recv` (the text) only one byte. -/
def splitWorld : ServerWorld where
  incoming := encodeInt 2 ++ ascii "AB" ++ encodeInt 2 ++ ascii "AB"
  recvRes := splitDelivery
  sendRes := 2
  textLength0 := [0, 0, 0, 0]
  keyLength0 := [0, 0, 0, 0]
  key0 := List.replicate BUFFER_SIZE 0

/-! ## Lemmas on the codec and the transform -/

theorem charToIndex_range {c : Int} (h : inAlphabet c) :
    0 ≤ charToIndex c ∧ charToIndex c ≤ 26 := by
  unfold charToIndex chSpace chA
  rcases h with h | ⟨h1, h2⟩
  · simp [h, chSpace]
  · unfold chA at h1; unfold chZ at h2
    split <;> omega

theorem indexToChar_charToIndex {c : Int} (h : inAlphabet c) :
    indexToChar (charToIndex c) = c := by
  unfold indexToChar charToIndex wrapChar chSpace chA
  rcases h with h | ⟨h1, h2⟩
  · simp [h, chSpace]
  · unfold chA at h1; unfold chZ at h2
    have hc : c ≠ 32 := by omega
    have h26 : c - 65 ≠ 26 := by omega
    simp only [hc, h26, if_false]
    omega

theorem indexToChar_inAlphabet {i : Int} (h0 : 0 ≤ i) (h26 : i ≤ 26) :
    inAlphabet (indexToChar i) := by
  unfold indexToChar inAlphabet wrapChar chSpace chA chZ
  by_cases h : i = 26
  · simp [h]
  · right
    simp only [h, if_false]
    omega

theorem charToIndex_indexToChar {i : Int} (h0 : 0 ≤ i) (h26 : i ≤ 26) :
    charToIndex (indexToChar i) = i := by
  unfold indexToChar charToIndex wrapChar chSpace chA
  by_cases h : i = 26
  · simp [h]
  · simp only [h, if_false]
    have : (65 + i + 128) % 256 - 128 = 65 + i := by omega
    rw [this]
    have : 65 + i ≠ 32 := by omega
    simp only [this, if_false]
    omega

/-! ## The transform as a position-wise map -/

theorem encryptLoop_append (rest : List Int) :
    ∀ (done key : List Int), done.length + rest.length ≤ key.length →
      encryptLoop rest.length done.length (done ++ rest) key
        = some (done ++ List.zipWith
            (fun t k => indexToChar ((charToIndex t + charToIndex k).tmod 27))
            rest (key.drop done.length)) := by
  induction rest with
  | nil => intro done key _; simp [encryptLoop]
  | cons t rest ih =>
    intro done key hlen
    simp only [List.length_cons] at hlen
    have hk : done.length < key.length := by omega
    have hdrop : key.drop done.length = key[done.length] :: key.drop (done.length + 1) := by
      rw [List.drop_eq_getElem_cons hk]
    simp only [List.length_cons, encryptLoop]
    have ht : (done ++ t :: rest)[done.length]? = some t := by
      rw [List.getElem?_append_right (Nat.le_refl _)]; simp
    have hk2 : key[done.length]? = some key[done.length] := by
      simp [hk]
    rw [ht, hk2]
    simp only
    have hset : (done ++ t :: rest).set done.length
        (indexToChar ((charToIndex t + charToIndex key[done.length]).tmod 27))
        = (done ++ [indexToChar ((charToIndex t + charToIndex key[done.length]).tmod 27)])
            ++ rest := by
      simp
    rw [hset]
    have := ih (done ++ [indexToChar ((charToIndex t + charToIndex key[done.length]).tmod 27)])
      key (by simp; omega)
    simp only [List.length_append, List.length_singleton] at this
    rw [this, hdrop]
    simp only [List.zipWith_cons_cons, List.append_assoc, List.singleton_append]

theorem encrypt_eq_zipWith (T K : List Int) (h : T.length ≤ K.length) :
    encrypt T K T.length = some (List.zipWith
      (fun t k => indexToChar ((charToIndex t + charToIndex k).tmod 27)) T K) := by
  have := encryptLoop_append T [] K (by simpa using h)
  simpa [encrypt] using this

theorem decryptLoop_append (rest : List Int) :
    ∀ (done key : List Int), done.length + rest.length ≤ key.length →
      decryptLoop rest.length done.length (done ++ rest) key
        = some (done ++ List.zipWith
            (fun c k => indexToChar ((charToIndex c - charToIndex k + 27) % 27))
            rest (key.drop done.length)) := by
  induction rest with
  | nil => intro done key _; simp [decryptLoop]
  | cons c rest ih =>
    intro done key hlen
    simp only [List.length_cons] at hlen
    have hk : done.length < key.length := by omega
    have hdrop : key.drop done.length = key[done.length] :: key.drop (done.length + 1) := by
      rw [List.drop_eq_getElem_cons hk]
    simp only [List.length_cons, decryptLoop]
    have hc : (done ++ c :: rest)[done.length]? = some c := by
      rw [List.getElem?_append_right (Nat.le_refl _)]; simp
    have hk2 : key[done.length]? = some key[done.length] := by
      simp [hk]
    rw [hc, hk2]
    simp only
    have hset : (done ++ c :: rest).set done.length
        (indexToChar ((charToIndex c - charToIndex key[done.length] + 27) % 27))
        = (done ++ [indexToChar ((charToIndex c - charToIndex key[done.length] + 27) % 27)])
            ++ rest := by
      simp
    rw [hset]
    have := ih (done ++ [indexToChar ((charToIndex c - charToIndex key[done.length] + 27) % 27)])
      key (by simp; omega)
    simp only [List.length_append, List.length_singleton] at this
    rw [this, hdrop]
    simp only [List.zipWith_cons_cons, List.append_assoc, List.singleton_append]

theorem decrypt_eq_zipWith (C K : List Int) (h : C.length ≤ K.length) :
    decrypt C K C.length = some (List.zipWith
      (fun c k => indexToChar ((charToIndex c - charToIndex k + 27) % 27)) C K) := by
  have := decryptLoop_append C [] K (by simpa using h)
  simpa [decrypt] using this

/-- On alphabet characters the sum of the two indices is not negative, so C's
remainder is the mathematical one. -/
theorem encrypt_index_eq {t k : Int} (ht : inAlphabet t) (hk : inAlphabet k) :
    (charToIndex t + charToIndex k).tmod 27 = (charToIndex t + charToIndex k) % 27 := by
  have h1 := charToIndex_range ht
  have h2 := charToIndex_range hk
  exact Int.tmod_eq_emod (by omega) (by decide)

theorem decrypt_encrypt_char {t k : Int} (ht : inAlphabet t) (hk : inAlphabet k) :
    indexToChar ((charToIndex (indexToChar ((charToIndex t + charToIndex k).tmod 27))
      - charToIndex k + 27) % 27) = t := by
  have h1 := charToIndex_range ht
  have h2 := charToIndex_range hk
  rw [encrypt_index_eq ht hk]
  have h3 : 0 ≤ (charToIndex t + charToIndex k) % 27 := by omega
  have h4 : (charToIndex t + charToIndex k) % 27 ≤ 26 := by omega
  rw [charToIndex_indexToChar h3 h4]
  have : ((charToIndex t + charToIndex k) % 27 - charToIndex k + 27) % 27 = charToIndex t := by
    omega
  rw [this]
  exact indexToChar_charToIndex ht

theorem zipWith_decrypt_encrypt (T : List Int) :
    ∀ K : List Int, (∀ c ∈ T, inAlphabet c) → (∀ c ∈ K, inAlphabet c) →
      List.zipWith (fun c k => indexToChar ((charToIndex c - charToIndex k + 27) % 27))
        (List.zipWith (fun t k => indexToChar ((charToIndex t + charToIndex k).tmod 27)) T K) K
        = List.zipWith (fun t _ => t) T K := by
  induction T with
  | nil => intro K _ _; simp
  | cons t T ih =>
    intro K hT hK
    cases K with
    | nil => simp
    | cons k K =>
      simp only [List.zipWith_cons_cons, List.cons.injEq]
      refine ⟨decrypt_encrypt_char (hT t (by simp)) (hK k (by simp)), ?_⟩
      exact ih K (fun c hc => hT c (by simp [hc])) (fun c hc => hK c (by simp [hc]))

theorem zipWith_left (T : List Int) :
    ∀ K : List Int, T.length ≤ K.length → List.zipWith (fun t _ => t) T K = T := by
  induction T with
  | nil => intro K _; simp
  | cons t T ih =>
    intro K h
    cases K with
    | nil => simp at h
    | cons k K =>
      simp only [List.zipWith_cons_cons, List.cons.injEq, true_and]
      exact ih K (by simpa using h)

/-! ## Claims on the codec and the transform -/

/-- C1. Round trip: for a text and a key over the Cipher Alphabet, the key at
least as long as the text, `encrypt` returns a ciphertext, and the decrypting
transform of the spec applied to it with the same key returns the text. -/
theorem decrypt_encrypt_round_trip (T K : List Int)
    (hT : ∀ c ∈ T, inAlphabet c) (hK : ∀ c ∈ K, inAlphabet c) (hlen : T.length ≤ K.length) :
    ∃ C, encrypt T K T.length = some C ∧ decrypt C K T.length = some T := by
  refine ⟨_, encrypt_eq_zipWith T K hlen, ?_⟩
  have hl : (List.zipWith (fun t k => indexToChar ((charToIndex t + charToIndex k).tmod 27))
      T K).length = T.length := by
    simp [hlen]
  have := decrypt_eq_zipWith
    (List.zipWith (fun t k => indexToChar ((charToIndex t + charToIndex k).tmod 27)) T K) K
    (by rw [hl]; exact hlen)
  rw [hl] at this
  rw [this, zipWith_decrypt_encrypt T K hT hK, zipWith_left T K hlen]

theorem decrypt_encrypt_round_trip_witness :
    ∃ C, encrypt (ascii "HELLO") (ascii "XMCKL") ((ascii "HELLO").length : Int) = some C ∧
      decrypt C (ascii "XMCKL") ((ascii "HELLO").length : Int) = some (ascii "HELLO") :=
  decrypt_encrypt_round_trip (ascii "HELLO") (ascii "XMCKL") (by decide) (by decide) (by decide)

/-- C2. For a text and a key over the Cipher Alphabet, the key at least as long
as the text, `encrypt` succeeds and returns the text of the same length whose
character at each position `i` is
`indexToChar ((charToIndex T[i] + charToIndex K[i]) mod 27)`; and "HELLO" under
the key "XMCKL" becomes "DQNVZ". -/
theorem encrypt_spec (T K : List Int)
    (hT : ∀ c ∈ T, inAlphabet c) (hK : ∀ c ∈ K, inAlphabet c) (hlen : T.length ≤ K.length) :
    (∃ out, encrypt T K T.length = some out ∧ out.length = T.length ∧
      ∀ (i : Nat) (t k : Int), T[i]? = some t → K[i]? = some k →
        out[i]? = some (indexToChar ((charToIndex t + charToIndex k) % 27))) ∧
    encrypt (ascii "HELLO") (ascii "XMCKL") 5 = some (ascii "DQNVZ") := by
  refine ⟨⟨_, encrypt_eq_zipWith T K hlen, by simp [hlen], ?_⟩, by decide⟩
  intro i t k ht hk
  rw [List.getElem?_zipWith, ht, hk]
  have h1 : inAlphabet t := hT t (List.getElem?_mem ht)
  have h2 : inAlphabet k := hK k (List.getElem?_mem hk)
  simp only [encrypt_index_eq h1 h2]

theorem encrypt_spec_witness :
    (∃ out, encrypt (ascii "A B") (ascii "XMCKL") ((ascii "A B").length : Int) = some out ∧
      out.length = (ascii "A B").length ∧
      ∀ (i : Nat) (t k : Int), (ascii "A B")[i]? = some t → (ascii "XMCKL")[i]? = some k →
        out[i]? = some (indexToChar ((charToIndex t + charToIndex k) % 27))) ∧
    encrypt (ascii "HELLO") (ascii "XMCKL") 5 = some (ascii "DQNVZ") :=
  encrypt_spec (ascii "A B") (ascii "XMCKL") (by decide) (by decide) (by decide)

/-- C3. Alphabet closure: for a text and a key over the Cipher Alphabet, the
key at least as long as the text, every character of the result of `encrypt`
is in the Cipher Alphabet. -/
theorem encrypt_alphabet_closure (T K : List Int)
    (hT : ∀ c ∈ T, inAlphabet c) (hK : ∀ c ∈ K, inAlphabet c) (hlen : T.length ≤ K.length) :
    ∃ out, encrypt T K T.length = some out ∧ ∀ c ∈ out, inAlphabet c := by
  refine ⟨_, encrypt_eq_zipWith T K hlen, ?_⟩
  intro c hc
  obtain ⟨i, hi⟩ := List.getElem?_of_mem hc
  rw [List.getElem?_zipWith] at hi
  cases ht : T[i]? with
  | none => simp [ht] at hi
  | some t =>
    cases hk : K[i]? with
    | none => simp [ht, hk] at hi
    | some k =>
      simp only [ht, hk, Option.some.injEq] at hi
      have h1 := charToIndex_range (hT t (List.getElem?_mem ht))
      have h2 := charToIndex_range (hK k (List.getElem?_mem hk))
      rw [← hi, encrypt_index_eq (hT t (List.getElem?_mem ht)) (hK k (List.getElem?_mem hk))]
      exact indexToChar_inAlphabet (by omega) (by omega)

theorem encrypt_alphabet_closure_witness :
    ∃ out, encrypt (ascii "Z Z") (ascii " ZAB") ((ascii "Z Z").length : Int) = some out ∧
      ∀ c ∈ out, inAlphabet c :=
  encrypt_alphabet_closure (ascii "Z Z") (ascii " ZAB") (by decide) (by decide) (by decide)

/-- C4. The codec is a bijection between the 27 symbols and the indices 0..26:
for `c` in the alphabet `charToIndex c` is in [0,26], it is 26 for the space and
`c - 'A'` for a letter, and `indexToChar` undoes it; for `i` in [0,26]
`indexToChar i` is in the alphabet and `charToIndex` undoes it. -/
theorem codec_bijection (c i : Int) (hc : inAlphabet c) (h0 : 0 ≤ i) (h26 : i ≤ 26) :
    (0 ≤ charToIndex c ∧ charToIndex c ≤ 26) ∧
    charToIndex chSpace = 26 ∧
    (chA ≤ c ∧ c ≤ chZ → charToIndex c = c - chA) ∧
    indexToChar (charToIndex c) = c ∧
    inAlphabet (indexToChar i) ∧
    charToIndex (indexToChar i) = i := by
  refine ⟨charToIndex_range hc, by decide, ?_, indexToChar_charToIndex hc,
    indexToChar_inAlphabet h0 h26, charToIndex_indexToChar h0 h26⟩
  rintro ⟨h1, _⟩
  unfold charToIndex
  unfold chA at h1
  have : c ≠ chSpace := by unfold chSpace; omega
  simp [this]

theorem codec_bijection_witness :
    (0 ≤ charToIndex 90 ∧ charToIndex 90 ≤ 26) ∧
    charToIndex chSpace = 26 ∧
    (chA ≤ 90 ∧ 90 ≤ chZ → charToIndex 90 = 90 - chA) ∧
    indexToChar (charToIndex 90) = 90 ∧
    inAlphabet (indexToChar 26) ∧
    charToIndex (indexToChar 26) = 26 :=
  codec_bijection 90 26 (by decide) (by decide) (by decide)

/-- C7. Identity key: for a text over the Cipher Alphabet and a key at least as
long whose characters at the positions of the text are all 'A', `encrypt`
returns the text unchanged; "A B" under the key "AAA" stays "A B". -/
theorem encrypt_identity_key (T K : List Int)
    (hT : ∀ c ∈ T, inAlphabet c) (hlen : T.length ≤ K.length)
    (hA : ∀ i, i < T.length → K[i]? = some chA) :
    encrypt T K T.length = some T ∧
    encrypt (ascii "A B") (ascii "AAA") 3 = some (ascii "A B") := by
  refine ⟨?_, by decide⟩
  rw [encrypt_eq_zipWith T K hlen]
  congr 1
  apply List.ext_getElem?
  intro i
  rw [List.getElem?_zipWith]
  by_cases hi : i < T.length
  · have ht : T[i]? = some T[i] := by simp [hi]
    rw [ht, hA i hi]
    have hin : inAlphabet T[i] := hT _ (List.getElem_mem hi)
    have hr := charToIndex_range hin
    have h0 : charToIndex chA = 0 := by decide
    simp only [h0, add_zero, Option.some.injEq]
    rw [Int.tmod_eq_emod hr.1 (by decide)]
    have : charToIndex T[i] % 27 = charToIndex T[i] := by omega
    rw [this]
    exact indexToChar_charToIndex hin
  · have ht : T[i]? = none := by simp; omega
    rw [ht]

theorem encrypt_identity_key_witness :
    encrypt (ascii "A B") (ascii "AAAQ") ((ascii "A B").length : Int) = some (ascii "A B") ∧
    encrypt (ascii "A B") (ascii "AAA") 3 = some (ascii "A B") :=
  encrypt_identity_key (ascii "A B") (ascii "AAAQ") (by decide) (by decide) (by decide)

/-! ## The loop of `sendData` -/

theorem sendDataLoop_spec (send : Nat → Nat → Int) (data : List Int)
    (hsend : ∀ j c, 0 ≤ send j c ∧ send j c ≤ (c : Int)) :
    ∀ (fuel k t : Nat), t ≤ data.length → data.length - t ≤ fuel →
      ∃ (total : Int) (evs : List Event),
        sendDataLoop send data data.length fuel k t
            = some ⟨evs, Step.ret total, k + evs.length⟩ ∧
        (t : Int) ≤ total ∧ total ≤ data.length ∧
        total = t + accepted evs ∧
        written evs = (data.drop t).take (total - t).toNat ∧
        (∀ pre off r post, evs = pre ++ Event.send off r :: post →
            off = data.drop (t + accepted pre).toNat ∧
            r = send (k + pre.length) (data.length - (t + accepted pre).toNat) ∧
            (t : Int) + accepted pre < data.length) ∧
        (∀ e ∈ evs, ∃ off j c, 0 < c ∧ e = Event.send off (send j c)) ∧
        (total = data.length ↔ ∀ off, Event.send off 0 ∉ evs) ∧
        (∀ pre off post, evs = pre ++ Event.send off 0 :: post →
            post = [] ∧ total = t + accepted pre ∧ total < data.length) := by
  intro fuel
  induction fuel with
  | zero =>
    intro k t ht hf
    have hEq : t = data.length := by omega
    subst hEq
    refine ⟨(data.length : Int), [], ?_, le_refl _, le_refl _, by simp [accepted], by simp [written],
      ?_, by simp, by simp, ?_⟩
    · rw [sendDataLoop]; simp
    · intro pre off r post h; simp at h
    · intro pre off post h; simp at h
  | succ fuel ih =>
    intro k t ht hf
    by_cases hlt : t < data.length
    · obtain ⟨hr0, hrc⟩ := hsend k (data.length - t)
      have hcast : ((data.length : Int) - (t : Int)).toNat = data.length - t := by omega
      have hoff : (data.drop t).take (data.length - t) = data.drop t := by
        apply List.take_of_length_le; simp
      by_cases hz : send k (data.length - t) = 0
      · refine ⟨(t : Int), [Event.send (data.drop t) 0], ?_, le_refl _, by omega,
          by simp [accepted], by simp [written], ?_, ?_, ?_, ?_⟩
        · rw [sendDataLoop]
          have : (t : Int) < (data.length : Int) := by omega
          simp [this, hcast, hz, hoff]
        · intro pre off r post h
          rcases pre with _ | ⟨e, pre⟩
          · simp only [List.nil_append, List.cons.injEq, Event.send.injEq] at h
            obtain ⟨⟨h1, h2⟩, _⟩ := h
            subst h1 h2
            refine ⟨by simp [accepted], by simp [accepted, hz], ?_⟩
            simp only [accepted]; omega
          · simp at h
        · intro e he
          rw [List.mem_singleton] at he
          exact ⟨_, k, data.length - t, by omega, by rw [he, hz]⟩
        · constructor
          · intro h; omega
          · intro h; exact absurd (List.mem_singleton.mpr rfl) (h (data.drop t))
        · intro pre off post h
          rcases pre with _ | ⟨e, pre⟩
          · simp at h; refine ⟨h.2, by simp [accepted], by omega⟩
          · simp at h
      · have hpos : 0 < send k (data.length - t) := by omega
        obtain ⟨r, hr⟩ : ∃ r : Nat, send k (data.length - t) = (r : Int) :=
          ⟨(send k (data.length - t)).toNat, by omega⟩
        have hrpos : 0 < r := by omega
        have hrle : t + r ≤ data.length := by omega
        obtain ⟨total, evs, hrun, h1, h2, h3, h4, h5, h6, h7, h8⟩ :=
          ih (k + 1) (t + r) hrle (by omega)
        refine ⟨total, Event.send (data.drop t) r :: evs, ?_, by omega, h2, ?_, ?_, ?_, ?_, ?_, ?_⟩
        · rw [sendDataLoop]
          have hlt2 : (t : Int) < (data.length : Int) := by omega
          have hne : ¬ ((r : Int) < 0) := by omega
          have hne0 : ¬ ((r : Int) = 0) := by omega
          have hcast2 : ((t : Int) + (r : Int)) = ((t + r : Nat) : Int) := by push_cast; rfl
          simp only [hlt2, if_true, hcast, hr, hne, hne0, if_false, Int.toNat_ofNat, hoff, hcast2,
            hrun]
          simp; omega
        · simp only [accepted]; push_cast at h3; omega
        · simp only [written, h4, Int.toNat_ofNat]
          have e1 : (total - (t : Int)).toNat = r + (total - ((t + r : Nat) : Int)).toNat := by
            push_cast; omega
          rw [e1, List.take_add, List.drop_drop]
        · intro pre off r' post h
          rcases pre with _ | ⟨e, pre⟩
          · simp only [List.nil_append, List.cons.injEq, Event.send.injEq] at h
            obtain ⟨⟨h1, h2⟩, _⟩ := h
            subst h1 h2
            refine ⟨by simp [accepted], by simp [accepted, hr], ?_⟩
            simp only [accepted]; omega
          · simp only [List.cons_append, List.cons.injEq] at h
            obtain ⟨he, hrest⟩ := h
            subst he
            obtain ⟨q1, q2, q3⟩ := h5 pre off r' post hrest
            have e : (t : Int) + ((r : Int) + accepted pre)
                = ((t + r : Nat) : Int) + accepted pre := by push_cast; omega
            have e2 : k + (pre.length + 1) = k + 1 + pre.length := by omega
            simp only [accepted, List.length_cons, e, e2]
            exact ⟨q1, q2, q3⟩
        · intro e he
          rcases List.mem_cons.mp he with h | h
          · exact ⟨_, k, data.length - t, by omega, by rw [h, hr]⟩
          · exact h6 e h
        · rw [h7]
          constructor
          · intro h off hmem
            rcases List.mem_cons.mp hmem with h' | h'
            · injection h' with _ h0; omega
            · exact h off h'
          · intro h off hmem
            exact h off (List.mem_cons_of_mem _ hmem)
        · intro pre off post h
          rcases pre with _ | ⟨e, pre⟩
          · simp at h; omega
          · simp at h
            obtain ⟨he, hrest⟩ := h
            subst he
            obtain ⟨p1, p2, p3⟩ := h8 pre off post hrest
            refine ⟨p1, ?_, p3⟩
            simp only [accepted]; push_cast at p2; omega
    · have hEq : t = data.length := by omega
      subst hEq
      refine ⟨(data.length : Int), [], ?_, le_refl _, le_refl _, by simp [accepted],
        by simp [written], ?_, by simp, by simp, ?_⟩
      · rw [sendDataLoop]; simp
      · intro pre off r post h; simp at h
      · intro pre off post h; simp at h

theorem sendData_run (send : Nat → Nat → Int) (data : List Int) (fuel k : Nat)
    (hsend : ∀ j c, 0 ≤ send j c ∧ send j c ≤ (c : Int)) (hfuel : data.length ≤ fuel) :
    ∃ (total : Int) (evs : List Event),
      sendData send fuel k data data.length = some ⟨evs, Step.ret total, k + evs.length⟩ ∧
      0 ≤ total ∧ total ≤ data.length ∧
      total = accepted evs ∧
      written evs = data.take total.toNat ∧
      (∀ pre off r post, evs = pre ++ Event.send off r :: post →
          off = data.drop (accepted pre).toNat ∧
          r = send (k + pre.length) (data.length - (accepted pre).toNat) ∧
          accepted pre < data.length) ∧
      (∀ e ∈ evs, ∃ off j c, 0 < c ∧ e = Event.send off (send j c)) ∧
      (total = data.length ↔ ∀ off, Event.send off 0 ∉ evs) ∧
      (∀ pre off post, evs = pre ++ Event.send off 0 :: post →
          post = [] ∧ total = accepted pre ∧ total < data.length) := by
  obtain ⟨total, evs, hrun, h1, h2, h3, h4, h5, h6, h7, h8⟩ :=
    sendDataLoop_spec send data hsend fuel k 0 (Nat.zero_le _) (by omega)
  refine ⟨total, evs, ?_, ?_, h2, ?_, ?_, ?_, h6, h7, ?_⟩
  · simpa [sendData] using hrun
  · simpa using h1
  · simpa using h3
  · simpa using h4
  · intro pre off r post h
    simpa using h5 pre off r post h
  · intro pre off post h
    simpa using h8 pre off post h

theorem written_append (a b : List Event) : written (a ++ b) = written a ++ written b := by
  induction a with
  | nil => simp [written]
  | cons e a ih =>
    cases e <;> simp [written, ih]

theorem strlen_eq_length {s : List Int} (h : ∀ c ∈ s, c ≠ 0) : strlen s = s.length := by
  unfold strlen
  have : s.takeWhile (fun c => decide (c ≠ 0)) = s := by
    rw [List.takeWhile_eq_self_iff]
    intro x hx
    simpa using h x hx
  rw [this]

theorem length_encodeInt (n : Int) : (encodeInt n).length = 4 := by
  simp [encodeInt]

theorem decodeInt_encodeInt {n : Int} (h0 : 0 ≤ n) (h1 : n < 2147483648) :
    decodeInt (encodeInt n) = n := by
  unfold decodeInt encodeInt wrapChar
  simp only [List.getD_cons_zero, List.getD_cons_succ]
  split <;> omega

theorem sendField_spec (send : Nat → Nat → Int) (data : List Int) (fuel k : Nat)
    (w1 w2 : String)
    (hsend : ∀ j c, 0 ≤ send j c ∧ send j c ≤ (c : Int))
    (hnul : ∀ c ∈ data, c ≠ 0) (hfuel4 : 4 ≤ fuel) (hfuel : data.length ≤ fuel) :
    ∃ (evs : List Event) (n : Int) (calls : Nat),
      sendField send fuel k data w1 w2 = some ⟨evs, Step.ret n, calls⟩ ∧
      (∃ r, Event.send (encodeInt data.length) r ∈ evs) ∧
      (∀ e ∈ evs, (∃ off j c, 0 < c ∧ e = Event.send off (send j c))
          ∨ e = Event.stderr w1 ∨ e = Event.stderr w2) ∧
      ((∃ off, Event.send off 0 ∈ evs) → Event.stderr w1 ∈ evs ∨ Event.stderr w2 ∈ evs) ∧
      ((∀ off, Event.send off 0 ∉ evs) → written evs = encodeInt data.length ++ data) := by
  have hs : strlen data = data.length := strlen_eq_length hnul
  obtain ⟨t1, e1, hrun1, a1, a2, a3, a4, a5, a6, a7, a8⟩ :=
    sendData_run send (encodeInt data.length) fuel k hsend (by rw [length_encodeInt]; exact hfuel4)
  obtain ⟨t2, e2, hrun2, b1, b2, b3, b4, b5, b6, b7, b8⟩ :=
    sendData_run send data fuel (k + e1.length) hsend hfuel
  have hl4 : ((encodeInt (data.length : Int)).length : Int) = 4 := by
    rw [length_encodeInt]; rfl
  rw [hl4] at hrun1 a2 a7 a8
  have hne : e1 ≠ [] := by
    intro h
    subst h
    have : t1 = 4 := a7.mpr (by simp)
    simp [accepted] at a3
    omega
  have hfirst : ∃ r, Event.send (encodeInt data.length) r ∈ e1 := by
    rcases e1 with _ | ⟨e, rest⟩
    · exact absurd rfl hne
    · obtain ⟨off, j, c, _, he⟩ := a6 e (by simp)
      have := a5 [] off (send j c) rest (by simp [he])
      simp [accepted] at this
      exact ⟨send j c, by simp [he, this]⟩
  have hsz : toSizeT t1 < 4 ↔ t1 < 4 := by
    unfold toSizeT; omega
  refine ⟨e1 ++ (if toSizeT t1 < 4 then [Event.stderr w1] else []) ++ e2
      ++ (if t2 < (data.length : Int) then [Event.stderr w2] else []),
    t2, k + e1.length + e2.length, ?_, ?_, ?_, ?_, ?_⟩
  · unfold sendField
    simp only [hs, hrun1, hrun2]
  · obtain ⟨r, hr⟩ := hfirst
    exact ⟨r, by simp [hr]⟩
  · intro e he
    simp only [List.mem_append] at he
    rcases he with ((he | he) | he) | he
    · exact Or.inl (a6 e he)
    · split at he
      · simp at he; exact Or.inr (Or.inl he)
      · simp at he
    · exact Or.inl (b6 e he)
    · split at he
      · simp at he; exact Or.inr (Or.inr he)
      · simp at he
  · rintro ⟨off, hoff⟩
    simp only [List.mem_append] at hoff
    rcases hoff with ((he | he) | he) | he
    · have : t1 ≠ 4 := fun h => (a7.mp h) off he
      have : t1 < 4 := by omega
      left
      simp [hsz, this]
    · split at he <;> simp at he
    · have : t2 ≠ data.length := fun h => (b7.mp h) off he
      have : t2 < data.length := by omega
      right
      simp [this]
    · split at he <;> simp at he
  · intro hno
    have h1 : t1 = 4 := a7.mpr (fun off h => hno off (by simp [h]))
    have h2 : t2 = data.length := b7.mpr (fun off h => hno off (by simp [h]))
    simp only [written_append]
    rw [a4, b4, h1, h2]
    have hw1 : written (if toSizeT 4 < 4 then [Event.stderr w1] else []) = [] := by
      simp [toSizeT, written]
    have hw2 : written (if (data.length : Int) < data.length then [Event.stderr w2] else [])
        = [] := by
      simp [written]
    rw [hw1, hw2]
    have : (encodeInt (data.length : Int)).take (4 : Int).toNat = encodeInt data.length := by
      apply List.take_of_length_le; rw [length_encodeInt]; decide
    rw [this]
    simp

theorem sendData_trace (send : Nat → Nat → Int) (data : List Int) (fuel k : Nat)
    (hsend : ∀ j c, 0 ≤ send j c ∧ send j c ≤ (c : Int)) (hfuel : data.length ≤ fuel) :
    ∃ (total : Int) (evs : List Event),
      sendData send fuel k data data.length = some ⟨evs, Step.ret total, k + evs.length⟩ ∧
      isSendTrace send k data evs total ∧
      written evs = data.take total.toNat := by
  obtain ⟨total, evs, hrun, h1, h2, h3, h4, h5, h6, h7, h8⟩ :=
    sendData_run send data fuel k hsend hfuel
  refine ⟨total, evs, hrun, ⟨?_, h5, h3, h1, h2, h7, ?_⟩, h4⟩
  · intro e he
    obtain ⟨off, j, c, _, h⟩ := h6 e he
    exact ⟨off, _, h⟩
  · intro pre off post h
    exact (h8 pre off post h).1

theorem sendField_run (send : Nat → Nat → Int) (data : List Int) (fuel k : Nat)
    (w1 w2 : String)
    (hsend : ∀ j c, 0 ≤ send j c ∧ send j c ≤ (c : Int))
    (hnul : ∀ c ∈ data, c ≠ 0) (hfuel4 : 4 ≤ fuel) (hfuel : data.length ≤ fuel) :
    ∃ (e1 e2 : List Event) (n1 n2 : Int),
      isSendTrace send k (encodeInt data.length) e1 n1 ∧
      isSendTrace send (k + e1.length) data e2 n2 ∧
      sendField send fuel k data w1 w2
        = some ⟨e1 ++ (if n1 < 4 then [Event.stderr w1] else [])
            ++ e2 ++ (if n2 < (data.length : Int) then [Event.stderr w2] else []),
          Step.ret n2, k + e1.length + e2.length⟩ := by
  have hs : strlen data = data.length := strlen_eq_length hnul
  obtain ⟨n1, e1, hrun1, tr1, _⟩ :=
    sendData_trace send (encodeInt data.length) fuel k hsend
      (by rw [length_encodeInt]; exact hfuel4)
  obtain ⟨n2, e2, hrun2, tr2, _⟩ :=
    sendData_trace send data fuel (k + e1.length) hsend hfuel
  have hl4 : ((encodeInt (data.length : Int)).length : Int) = 4 := by
    rw [length_encodeInt]; rfl
  rw [hl4] at hrun1
  have hn1 : 0 ≤ n1 ∧ n1 ≤ 4 := by
    obtain ⟨_, _, _, h0, h4, _⟩ := tr1
    rw [hl4] at h4
    exact ⟨h0, h4⟩
  have hsz : toSizeT n1 < 4 ↔ n1 < 4 := by
    unfold toSizeT; omega
  refine ⟨e1, e2, n1, n2, tr1, tr2, ?_⟩
  unfold sendField
  simp only [hs, hrun1, hrun2, hsz]

/-! ## Claim on `sendData` -/

/-- C8. For data of size `n` and send results that are never negative and never
more than the count offered, `sendData` terminates (any fuel of at least `n`
iterations is enough) and returns a total; it only calls `send`; the call made
after the calls `pre` is the `send` numbered `k + pre.length`, made while bytes
remain, offered exactly the not-yet-sent suffix of the data, and its recorded
result is what the transport returns for that count; the total is the number
of bytes accepted, the accepted chunks concatenated are the first `total` bytes
of the data; the total is `n` exactly when no send reported zero progress, and
a zero-progress send is the last call, the total then being the number of
bytes accepted before it, below `n`. -/
theorem sendData_spec (send : Nat → Nat → Int) (data : List Int) (fuel k : Nat)
    (hsend : ∀ j c, 0 ≤ send j c ∧ send j c ≤ (c : Int)) (hfuel : data.length ≤ fuel) :
    ∃ (total : Int) (evs : List Event),
      sendData send fuel k data data.length = some ⟨evs, Step.ret total, k + evs.length⟩ ∧
      (∀ e ∈ evs, ∃ off r, e = Event.send off r) ∧
      (∀ pre off r post, evs = pre ++ Event.send off r :: post →
          off = data.drop (accepted pre).toNat ∧
          r = send (k + pre.length) (data.length - (accepted pre).toNat) ∧
          accepted pre < data.length) ∧
      total = accepted evs ∧
      written evs = data.take total.toNat ∧
      (total = data.length ↔ ∀ off, Event.send off 0 ∉ evs) ∧
      (∀ pre off post, evs = pre ++ Event.send off 0 :: post →
          post = [] ∧ total = accepted pre ∧ total < data.length) := by
  obtain ⟨total, evs, hrun, _, _, h3, h4, h5, h6, h7, h8⟩ :=
    sendData_run send data fuel k hsend hfuel
  refine ⟨total, evs, hrun, ?_, h5, h3, h4, h7, h8⟩
  intro e he
  obtain ⟨off, j, c, _, h⟩ := h6 e he
  exact ⟨off, _, h⟩

theorem sendData_spec_witness :
    ∃ (total : Int) (evs : List Event),
      sendData stallSecond 5 0 (ascii "HELLO") ((ascii "HELLO").length : Int)
        = some ⟨evs, Step.ret total, 0 + evs.length⟩ ∧
      (∀ e ∈ evs, ∃ off r, e = Event.send off r) ∧
      (∀ pre off r post, evs = pre ++ Event.send off r :: post →
          off = (ascii "HELLO").drop (accepted pre).toNat ∧
          r = stallSecond (0 + pre.length) ((ascii "HELLO").length - (accepted pre).toNat) ∧
          accepted pre < ((ascii "HELLO").length : Int)) ∧
      total = accepted evs ∧
      written evs = (ascii "HELLO").take total.toNat ∧
      (total = ((ascii "HELLO").length : Int) ↔ ∀ off, Event.send off 0 ∉ evs) ∧
      (∀ pre off post, evs = pre ++ Event.send off 0 :: post →
          post = [] ∧ total = accepted pre ∧ total < ((ascii "HELLO").length : Int)) :=
  sendData_spec stallSecond (ascii "HELLO") 5 0
    (by intro j c; by_cases h : j = 1 <;> simp [stallSecond, h]) (by decide)

/-! ## The server's reads -/

theorem recv_full (payload rest dst : List Int) (h : payload.length ≤ dst.length) :
    recv (payload.length : Int) (payload ++ rest) dst payload.length
      = some ⟨payload.length, payload ++ dst.drop payload.length, rest⟩ := by
  unfold recv
  have h1 : ¬ ((payload.length : Int) < 0) := by omega
  simp [h1, h]

theorem toSizeT_of_nat (n : Nat) (h : n ≤ 2147483647) : toSizeT (n : Int) = n := by
  unfold toSizeT; omega

theorem recvField_full (recvRes : Nat → Nat → Int) (j : Nat)
    (payload rest len0 buf0 : List Int)
    (hrecv : ∀ i c, recvRes i c = (c : Int))
    (hlen : payload.length ≤ BUFFER_SIZE) (hlen0 : len0.length = 4)
    (hbuf0 : buf0.length = BUFFER_SIZE) :
    recvField recvRes j (encodeInt payload.length ++ payload ++ rest) len0 buf0
      = some ⟨[Event.recv 4 4, Event.recv payload.length payload.length],
          Step.ret ⟨payload.length, payload ++ buf0.drop payload.length, rest⟩⟩ := by
  have hB : BUFFER_SIZE = 1024 := rfl
  have h4 := recv_full (encodeInt payload.length) (payload ++ rest) len0
    (by rw [length_encodeInt, hlen0])
  rw [length_encodeInt] at h4
  have hdrop : len0.drop 4 = [] := by
    apply List.drop_of_length_le; omega
  rw [hdrop, List.append_nil] at h4
  have hdec : decodeInt (encodeInt (payload.length : Int)) = payload.length :=
    decodeInt_encodeInt (by omega) (by omega)
  have hsz : toSizeT (payload.length : Int) = payload.length :=
    toSizeT_of_nat _ (by omega)
  have hp := recv_full payload rest buf0 (by omega)
  unfold recvField
  rw [hrecv, List.append_assoc]
  simp only [Nat.cast_ofNat] at h4 ⊢
  rw [h4]
  simp only [hdec, hsz, hrecv, hp]
  simp

/-! ## The framing of one field -/

/-- Under full delivery the framing round trip holds.  For a payload the client
can load (a C string of at most `BUFFER_SIZE - 2` characters): over a
connection whose sends never fail and always make progress, the block of the
client that writes one field puts on the wire the length field followed by the
payload bytes, and when every `recv` returns as many bytes as it asks for, the
block of the handler that reads one field reads back that length and that
payload. -/
theorem framing_round_trip_full_delivery (payload rest len0 buf0 : List Int)
    (send recvRes : Nat → Nat → Int) (fuel k j : Nat) (w1 w2 : String)
    (hnul : ∀ c ∈ payload, c ≠ 0) (hlen : payload.length + 2 ≤ BUFFER_SIZE)
    (hsend : ∀ i c, 0 ≤ send i c ∧ send i c ≤ (c : Int))
    (hprog : ∀ i c, 0 < c → send i c ≠ 0)
    (hfuel : BUFFER_SIZE ≤ fuel)
    (hrecv : ∀ i c, recvRes i c = (c : Int))
    (hlen0 : len0.length = 4) (hbuf0 : buf0.length = BUFFER_SIZE) :
    ∃ run, sendField send fuel k payload w1 w2 = some run ∧
      written run.events = encodeInt payload.length ++ payload ∧
      recvField recvRes j (written run.events ++ rest) len0 buf0
        = some ⟨[Event.recv 4 4, Event.recv payload.length payload.length],
            Step.ret ⟨payload.length, payload ++ buf0.drop payload.length, rest⟩⟩ ∧
      (payload ++ buf0.drop payload.length).take payload.length = payload := by
  have hB : BUFFER_SIZE = 1024 := rfl
  obtain ⟨evs, n, calls, hrun, _, hall, _, hw⟩ :=
    sendField_spec send payload fuel k w1 w2 hsend hnul (by omega) (by omega)
  have hno : ∀ off, Event.send off 0 ∉ evs := by
    intro off hmem
    rcases hall _ hmem with ⟨off2, i, c, hc, he⟩ | he | he
    · injection he with _ h0
      exact hprog i c hc h0.symm
    · cases he
    · cases he
  have hwr := hw hno
  refine ⟨_, hrun, hwr, ?_, by simp⟩
  simp only [hwr]
  exact recvField_full recvRes j payload rest len0 buf0 hrecv (by omega) hlen0 hbuf0

/-- C6 fails on the code.  The payload "AB" is within the supported lengths;
the client's field block writes its frame in full (the length field 2, then 'A'
'B'); the transport delivers every written byte in order but hands the `recv`
of the payload one byte of the two it asks for.  The handler's field block does
not read on: it holds the length 2 and the buffer 'A' NUL, not the payload, and
the byte 'B' stays in flight. -/
theorem field_not_read_back_on_split_delivery :
    sendField (fun _ c => (c : Int)) 10 0 (ascii "AB") warnTextSize warnText
      = some ⟨[Event.send (encodeInt 2) 4, Event.send (ascii "AB") 2], Step.ret 2, 2⟩ ∧
    written [Event.send (encodeInt 2) 4, Event.send (ascii "AB") 2]
      = encodeInt 2 ++ ascii "AB" ∧
    recvField splitDelivery 0 (encodeInt 2 ++ ascii "AB") [0, 0, 0, 0] clearedBuffer
      = some ⟨[Event.recv 4 4, Event.recv 2 1],
          Step.ret ⟨2, 65 :: List.replicate (BUFFER_SIZE - 1) 0, [66]⟩⟩ ∧
    (65 :: List.replicate (BUFFER_SIZE - 1) 0).take 2 = [65, 0] ∧
    (65 :: List.replicate (BUFFER_SIZE - 1) 0).take 2 ≠ ascii "AB" := by
  decide

/-! ## The client's `main` -/

theorem length_fgetsLine_le (room : Nat) : ∀ l : List Int, (fgetsLine room l).length ≤ room := by
  induction room with
  | zero => intro l; simp [fgetsLine]
  | succ room ih =>
    intro l
    cases l with
    | nil => simp [fgetsLine]
    | cons c cs =>
      simp only [fgetsLine]
      split
      · simp
      · simp only [List.length_cons]; have := ih cs; omega

theorem readFileContent_ret {file : Option (List Int)} {T : List Int}
    (h : (readFileContent file).result = Step.ret T) :
    readFileContent file = ⟨[], Step.ret T⟩ ∧ (∀ c ∈ T, c ≠ 0) ∧ T.length ≤ BUFFER_SIZE - 2 := by
  unfold readFileContent at h ⊢
  cases file with
  | none => simp at h
  | some content =>
    simp only at h ⊢
    split at h
    · simp at h
    · rename_i hne
      simp only [Step.ret.injEq] at h
      simp only [hne, if_false, h, true_and]
      subst h
      constructor
      · intro c hc
        have h1 := (List.takeWhile_sublist _).subset hc
        have h2 := List.mem_takeWhile_imp h1
        simpa using h2
      · have h1 := (List.takeWhile_sublist (fun c => decide (c ≠ 10))
          (l := (fgetsLine (BUFFER_SIZE - 1 - 1) content).takeWhile
            (fun c => decide (c ≠ 0)))).length_le
        have h2 := (List.takeWhile_sublist (fun c => decide (c ≠ 0))
          (l := fgetsLine (BUFFER_SIZE - 1 - 1) content)).length_le
        have h3 := length_fgetsLine_le (BUFFER_SIZE - 1 - 1) content
        have hB : BUFFER_SIZE = 1024 := rfl
        omega

theorem takeWhile_append_zeros (got : List Int) (m : Nat) :
    (got ++ List.replicate m 0).takeWhile (fun c => decide (c ≠ 0))
      = got.takeWhile (fun c => decide (c ≠ 0)) := by
  induction got with
  | nil => cases m <;> simp [List.replicate, List.takeWhile]
  | cons c got ih =>
    rw [List.cons_append, List.takeWhile_cons, List.takeWhile_cons, ih]

theorem recv_client (w : ClientWorld) (hres : 0 ≤ w.recvRes) :
    recv w.recvRes w.recvData (List.replicate BUFFER_SIZE 0) (BUFFER_SIZE - 1)
      = some ⟨(received w).length,
          received w ++ List.replicate (BUFFER_SIZE - (received w).length) 0,
          w.recvData.drop (received w).length⟩ := by
  unfold recv
  have h1 : ¬ (w.recvRes < 0) := by omega
  have hB : BUFFER_SIZE = 1024 := rfl
  have h2 : (w.recvData.take (min w.recvRes.toNat (BUFFER_SIZE - 1))).length
      ≤ (List.replicate BUFFER_SIZE (0 : Int)).length := by
    simp only [List.length_take, List.length_replicate]; omega
  simp only [h1, if_false, h2, if_true, received, List.drop_replicate]

theorem isSendTrace_short {send : Nat → Nat → Int} {k : Nat} {data : List Int}
    {evs : List Event} {total : Int} (h : isSendTrace send k data evs total) :
    total < data.length ↔ ∃ off, Event.send off 0 ∈ evs := by
  obtain ⟨_, _, _, _, hle, hiff, _⟩ := h
  constructor
  · intro hlt
    by_contra hno
    have : total = data.length := hiff.mpr (fun off hmem => hno ⟨off, hmem⟩)
    omega
  · rintro ⟨off, hmem⟩
    have : total ≠ data.length := fun heq => (hiff.mp heq) off hmem
    omega

/-- C5. Key-too-short rejection: when both files load and the key is shorter
than the text, `main` of the client writes its error message and exits with
code 1; the run has no network operation (no host lookup, socket, connect,
send, recv) and prints nothing on stdout. -/
theorem key_too_short_rejected (w : ClientWorld) (fuel : Nat) (T K : List Int)
    (hargs : 4 ≤ w.argc)
    (hT : (readFileContent w.textFile).result = Step.ret T)
    (hK : (readFileContent w.keyFile).result = Step.ret K)
    (hlen : K.length < T.length) :
    main w fuel = some ⟨[Event.stderr "CLIENT: ERROR, key length is shorter than plaintext\n"],
      Step.exit 1⟩ ∧
    ∀ run, main w fuel = some run →
      exitCode run.result = 1 ∧ ∀ e ∈ run.events, e.isNetwork = false ∧ e.isStdout = false := by
  obtain ⟨hT1, hT2, _⟩ := readFileContent_ret hT
  obtain ⟨hK1, hK2, _⟩ := readFileContent_ret hK
  have hmain : main w fuel
      = some ⟨[Event.stderr "CLIENT: ERROR, key length is shorter than plaintext\n"],
          Step.exit 1⟩ := by
    unfold main
    have h1 : ¬ (w.argc < 4) := by omega
    have h2 : strlen K < strlen T := by
      rw [strlen_eq_length hT2, strlen_eq_length hK2]; omega
    simp only [h1, if_false, hT1, hK1, h2, if_true, List.nil_append]
  refine ⟨hmain, ?_⟩
  intro run hrun
  rw [hmain] at hrun
  injection hrun with hrun
  subst hrun
  refine ⟨rfl, ?_⟩
  intro e he
  rw [List.mem_singleton] at he
  subst he
  exact ⟨rfl, rfl⟩

theorem key_too_short_rejected_witness :
    main shortKeyWorld 10
      = some ⟨[Event.stderr "CLIENT: ERROR, key length is shorter than plaintext\n"],
          Step.exit 1⟩ ∧
    ∀ run, main shortKeyWorld 10 = some run →
      exitCode run.result = 1 ∧ ∀ e ∈ run.events, e.isNetwork = false ∧ e.isStdout = false :=
  key_too_short_rejected shortKeyWorld 10 (ascii "HELLO") (ascii "XMC")
    (by decide) (by decide) (by decide) (by decide)

/-- C10, as the claim states it, fails: in the run `stalledWorld` the `send` of
the text reports zero progress, and the client prints a warning, goes on to
send the key field, receives, prints the reply and returns 0. -/
theorem zero_progress_send_is_not_fatal :
    main stalledWorld 10
      = some ⟨[Event.resolve, Event.socket, Event.connect,
          Event.send [5, 0, 0, 0] 4,
          Event.send (ascii "HELLO") 0,
          Event.stderr warnText,
          Event.send [5, 0, 0, 0] 4,
          Event.send (ascii "XMCKL") 5,
          Event.recv 1023 5,
          Event.stdout (ascii "DQNVZ"),
          Event.close], Step.ret 0⟩ ∧
    exitCode (Step.ret 0) ≠ 1 := by
  decide

/-- C10, amended.  With the files loaded, the key long enough and the
connection open, whenever no `send` and not the `recv` reports an error (a
negative result), a `send` that reports zero progress is not fatal.  The run of
`main` is: the lookup, `socket`, `connect`; then, for the text size, the text,
the key size and the key in this order, the `send` calls of one `sendData` run
against the transport (`isSendTrace`), whose returned total is the count of
bytes accepted and is short exactly when one of its calls reported zero
progress, followed by the warning of that very field on stderr exactly when the
total is short; then the `recv` for `BUFFER_SIZE - 1` bytes, the received bytes
up to the first NUL on stdout, `close`, and the return of 0. -/
theorem zero_progress_send_warns_and_continues (w : ClientWorld) (fuel : Nat)
    (T K : List Int)
    (hargs : 4 ≤ w.argc)
    (hT : (readFileContent w.textFile).result = Step.ret T)
    (hK : (readFileContent w.keyFile).result = Step.ret K)
    (hlen : T.length ≤ K.length)
    (hhost : w.hostFound = true) (hsock : 0 ≤ w.socketFD) (hconn : 0 ≤ w.connectRes)
    (hsend : ∀ j c, 0 ≤ w.sendRes j c ∧ w.sendRes j c ≤ (c : Int))
    (hrecv : 0 ≤ w.recvRes) (hfuel : BUFFER_SIZE ≤ fuel) :
    ∃ (e1 e2 e3 e4 : List Event) (n1 n2 n3 n4 : Int),
      isSendTrace w.sendRes 0 (encodeInt T.length) e1 n1 ∧
      isSendTrace w.sendRes e1.length T e2 n2 ∧
      isSendTrace w.sendRes (e1.length + e2.length) (encodeInt K.length) e3 n3 ∧
      isSendTrace w.sendRes (e1.length + e2.length + e3.length) K e4 n4 ∧
      (n1 < 4 ↔ ∃ off, Event.send off 0 ∈ e1) ∧
      (n2 < T.length ↔ ∃ off, Event.send off 0 ∈ e2) ∧
      (n3 < 4 ↔ ∃ off, Event.send off 0 ∈ e3) ∧
      (n4 < K.length ↔ ∃ off, Event.send off 0 ∈ e4) ∧
      main w fuel
        = some ⟨[Event.resolve, Event.socket, Event.connect]
            ++ e1 ++ (if n1 < 4 then [Event.stderr warnTextSize] else [])
            ++ e2 ++ (if n2 < (T.length : Int) then [Event.stderr warnText] else [])
            ++ e3 ++ (if n3 < 4 then [Event.stderr warnKeySize] else [])
            ++ e4 ++ (if n4 < (K.length : Int) then [Event.stderr warnKey] else [])
            ++ [Event.recv (BUFFER_SIZE - 1) (received w).length,
                Event.stdout ((received w).takeWhile (fun c => c ≠ 0)),
                Event.close],
          Step.ret 0⟩ := by
  obtain ⟨hT1, hT2, hT3⟩ := readFileContent_ret hT
  obtain ⟨hK1, hK2, hK3⟩ := readFileContent_ret hK
  have hB : BUFFER_SIZE = 1024 := rfl
  obtain ⟨e1, e2, n1, n2, tr1, tr2, hf1⟩ :=
    sendField_run w.sendRes T fuel 0 warnTextSize warnText hsend hT2 (by omega) (by omega)
  obtain ⟨e3, e4, n3, n4, tr3, tr4, hf2⟩ :=
    sendField_run w.sendRes K fuel (0 + e1.length + e2.length) warnKeySize warnKey
      hsend hK2 (by omega) (by omega)
  simp only [Nat.zero_add] at tr2 tr3 tr4 hf1 hf2
  have hr := recv_client w hrecv
  have h1 : ¬ (w.argc < 4) := by omega
  have h2 : ¬ (strlen K < strlen T) := by
    rw [strlen_eq_length hT2, strlen_eq_length hK2]; omega
  have h3 : ¬ (w.socketFD < 0) := by omega
  have h4 : ¬ (w.connectRes < 0) := by omega
  have h5 : ¬ (((received w).length : Int) < 0) := by omega
  have hl4 : ∀ n : Int, (((encodeInt n).length : Nat) : Int) = 4 := by
    intro n; rw [length_encodeInt]; rfl
  have s1 := isSendTrace_short tr1
  have s2 := isSendTrace_short tr2
  have s3 := isSendTrace_short tr3
  have s4 := isSendTrace_short tr4
  rw [hl4] at s1 s3
  refine ⟨e1, e2, e3, e4, n1, n2, n3, n4, tr1, tr2, tr3, tr4, s1, s2, s3, s4, ?_⟩
  unfold main
  simp only [h1, if_false, hT1, hK1, h2, setupAddressStruct, hhost, if_true, h3, h4, hf1, hf2,
    hr, h5, takeWhile_append_zeros]
  simp

theorem zero_progress_send_warns_and_continues_witness :
    ∃ (e1 e2 e3 e4 : List Event) (n1 n2 n3 n4 : Int),
      isSendTrace stalledWorld.sendRes 0 (encodeInt (ascii "HELLO").length) e1 n1 ∧
      isSendTrace stalledWorld.sendRes e1.length (ascii "HELLO") e2 n2 ∧
      isSendTrace stalledWorld.sendRes (e1.length + e2.length)
        (encodeInt (ascii "XMCKL").length) e3 n3 ∧
      isSendTrace stalledWorld.sendRes (e1.length + e2.length + e3.length)
        (ascii "XMCKL") e4 n4 ∧
      (n1 < 4 ↔ ∃ off, Event.send off 0 ∈ e1) ∧
      (n2 < ((ascii "HELLO").length : Int) ↔ ∃ off, Event.send off 0 ∈ e2) ∧
      (n3 < 4 ↔ ∃ off, Event.send off 0 ∈ e3) ∧
      (n4 < ((ascii "XMCKL").length : Int) ↔ ∃ off, Event.send off 0 ∈ e4) ∧
      main stalledWorld 1024
        = some ⟨[Event.resolve, Event.socket, Event.connect]
            ++ e1 ++ (if n1 < 4 then [Event.stderr warnTextSize] else [])
            ++ e2 ++ (if n2 < ((ascii "HELLO").length : Int) then [Event.stderr warnText]
                else [])
            ++ e3 ++ (if n3 < 4 then [Event.stderr warnKeySize] else [])
            ++ e4 ++ (if n4 < ((ascii "XMCKL").length : Int) then [Event.stderr warnKey]
                else [])
            ++ [Event.recv (BUFFER_SIZE - 1) (received stalledWorld).length,
                Event.stdout ((received stalledWorld).takeWhile (fun c => c ≠ 0)),
                Event.close],
          Step.ret 0⟩ :=
  zero_progress_send_warns_and_continues stalledWorld 1024 (ascii "HELLO") (ascii "XMCKL")
    (by decide) (by decide) (by decide) (by decide) rfl (by decide) (by decide)
    (by intro j c; by_cases h : j = 1 <;> simp [stalledWorld, h])
    (by decide) (le_refl _)

/-- C9 fails on the code: on `splitWorld` the client's request ("AB", "AB") is
on the wire in full and the second `recv` returns one byte of the two it was
asked for; the handler does not read on, calls `encrypt` on the text "A\0"
with the key bytes `[0, 'A']`, and replies "66", while `encrypt` of the request
is "AC". -/
theorem handler_does_not_loop_on_short_recv :
    handleCommunication splitWorld
      = some ⟨[Event.recv 4 4, Event.recv 2 1, Event.recv 4 4, Event.recv 578 3,
          Event.send (ascii "66") 2], Step.ret ()⟩ ∧
    (∃ req, receiveRequest splitWorld = some (Sum.inr req) ∧
      req.buffer.take 2 = [65, 0] ∧ req.textLength = 2 ∧
      req.key.take 2 = [0, 65] ∧ req.keyLength = 578) ∧
    encrypt (ascii "AB") (ascii "AB") 2 = some (ascii "AC") := by
  refine ⟨by decide, ⟨_, rfl, by decide, by decide, by decide, by decide⟩, by decide⟩

end OTP
